import Mathlib

/-!
Verification development for the wavenet-pianist audio reader
(src/wavenet/audio_reader.py).

The Python module is shallowly embedded below:

* waveforms and per-frame energies are lists of rationals (the floats of
  the source are modelled as exact rationals);
* the queue operations performed by a worker thread are modelled as an
  event trace (`Event`): one `Event.sample` per `sess.run(self.enqueue, ...)`,
  one `Event.gcId` per `sess.run(self.gc_enqueue, ...)`, one `Event.lcEmb`
  per `sess.run(self.lc_enqueue, ...)`, and `Event.warnSilence` for the
  silence-skip diagnostic print;
* the external short-time primitives of librosa (rmse / piptrack) are kept
  abstract: the per-frame energies of a file and the magnitude matrix of a
  window enter the model as parameters, with their documented contracts
  (nonnegative magnitudes, frame index i starting at sample i * 512)
  stated as hypotheses or modelled separately where a claim needs them.
-/

/-- Python truthiness of the optional `sample_size` argument: both `None`
and `0` are falsy, so line 189 (`if self.sample_size:`) takes the
windowed branch only for a present, nonzero sample size. -/
def truthy (ssize : Option ℕ) : Bool :=
  match ssize with
  | none => false
  | some n => decide (n ≠ 0)

/-- One observable action of a worker thread: a push to the sample queue,
to the category-id queue, to the local-conditioning queue, or the
silence-warning diagnostic print. -/
inductive Event where
  | sample (w : List ℚ)
  | gcId (cid : ℤ)
  | lcEmb (e : List (List ℚ))
  | warnSilence
deriving DecidableEq

/-- The payloads of the sample-queue pushes of a trace, in order. -/
def sampleEvents (tr : List Event) : List (List ℚ) :=
  tr.filterMap fun e => match e with | Event.sample w => some w | _ => none

/-- The payloads of the category-id-queue pushes of a trace, in order. -/
def gcIdEvents (tr : List Event) : List ℤ :=
  tr.filterMap fun e => match e with | Event.gcId i => some i | _ => none

/-- The payloads of the local-conditioning-queue pushes of a trace, in order. -/
def lcEmbEvents (tr : List Event) : List (List (List ℚ)) :=
  tr.filterMap fun e => match e with | Event.lcEmb x => some x | _ => none

/-- Number of sample-queue pushes in a trace. -/
def countSample (tr : List Event) : ℕ := (sampleEvents tr).length

/-- Number of category-id-queue pushes in a trace. -/
def countGc (tr : List Event) : ℕ := (gcIdEvents tr).length

/-- Number of local-conditioning-queue pushes in a trace. -/
def countLc (tr : List Event) : ℕ := (lcEmbEvents tr).length

/-- Embedding of `trim_silence` (audio_reader.py lines 66-78).  The
external energy computation `librosa.feature.rmse` is abstracted into the
parameter `energy`, the list of per-frame energies of `audio`.  The
source computes `frames = np.nonzero(energy > threshold)` (the sorted
frame indices whose energy strictly exceeds the threshold), converts them
to sample offsets with `librosa.core.frames_to_samples` (multiplication
by the default hop length 512), and returns
`audio[indices[0]:indices[-1]]` when `indices` is nonempty and the empty
slice `audio[0:0]` otherwise. -/
def trim_silence (audio energy : List ℚ) (threshold : ℚ) : List ℚ :=
  let frames := (List.range energy.length).filter
    (fun i => decide (threshold < energy.getD i 0))
  match frames.head?, frames.getLast? with
  | some f0, some f1 => (audio.take (f1 * 512)).drop (f0 * 512)
  | _, _ => []

/-- Modelled from the spec: the number of analysis frames produced by the
external short-time energy primitive (librosa rmse, absent from src/) for
a waveform of length L, with its default parameters: hop length 512 and
centred frames, which yield 1 + L / 512 frames for an even frame length.
Used only to instantiate counterexamples at concrete waveforms. -/
def rmse_num_frames (L : ℕ) : ℕ := 1 + L / 512

/-- Entry j of a magnitude row, with numpy's out-of-range behaviour
irrelevant (all accesses in the source are in range); 0 as default. -/
def rowD (row : List ℚ) (j : ℕ) : ℚ := row.getD j 0

/-- The selection order realised by `np.argpartition(row, -k)[-k:]` on
line 211: index i is placed before index j when its magnitude is larger,
with the tie-break between equal magnitudes (implementation-defined in
numpy, required by the spec only to be deterministic) modelled as lowest
index first. -/
def pitchOrder (row : List ℚ) (i j : ℕ) : Prop :=
  rowD row j < rowD row i ∨ (rowD row i = rowD row j ∧ i ≤ j)

instance (row : List ℚ) : DecidableRel (pitchOrder row) := fun _ _ =>
  inferInstanceAs (Decidable (_ ∨ _))

/-- Embedding of `np.argpartition(magnitudes[i], -k)[-k:]` (line 211): k
indices of the row carrying its k largest magnitudes. -/
def argpartitionTop (row : List ℚ) (k : ℕ) : List ℕ :=
  (List.insertionSort (pitchOrder row) (List.range row.length)).take k

/-- The indices kept for one frame (lines 208-213): `nonzero_cnt` counts
the indices of nonzero magnitude (`len(np.nonzero(magnitudes[i])[0])`),
`num_ind_to_keep = min(nonzero_cnt, 6)`, and `ind_of_largest_mags` is the
argpartition selection of that many largest-magnitude indices, or the
empty list when the count is zero. -/
def pitchInd (row : List ℚ) : List ℕ :=
  let nonzero_cnt := ((List.range row.length).filter
    (fun j => decide (rowD row j ≠ 0))).length
  let num_ind_to_keep := min nonzero_cnt 6
  if num_ind_to_keep ≠ 0 then argpartitionTop row num_ind_to_keep else []

/-- Embedding of the per-frame loop body of lines 207-214: the selected
indices (`pitchInd`) are set to 1.0 by `np.put` in an all-zero row of the
frame's width. -/
def pitchEmbedRow (row : List ℚ) : List ℚ :=
  (List.range row.length).map (fun j => if j ∈ pitchInd row then (1 : ℚ) else 0)

/-- Embedding of lines 201-214: the conditioning embedding of a window is
the row-wise sparsification of the transposed magnitude matrix returned
by the external pitch primitive `librosa.piptrack`.  The primitive itself
is out of scope; it enters as the parameter `mags`, mapping a window to
its (already transposed, frame-major) magnitude matrix. -/
def lc_embedding (mags : List ℚ → List (List ℚ)) (piece : List ℚ) : List (List ℚ) :=
  (mags piece).map pitchEmbedRow

/-- Embedding of the window-emission loop of `thread_main`
(lines 192-217).  With `window = receptive_field + sample_size`: while
the remaining audio is longer than `window`, push the first `window`
samples, advance by `sample_size`, then push the category id if
`gc_enabled` and the conditioning embedding of the piece if `lc_enabled`.
The loop is reached only under `if self.sample_size:` (line 189), so
S is nonzero there; that guard is folded into the loop condition to make
termination manifest (with S = 0 the source loop would not be reached). -/
def windowLoop (gc lc : Bool) (mags : List ℚ → List (List ℚ)) (cid : ℤ)
    (R S : ℕ) (audio : List ℚ) : List Event :=
  if h : S ≠ 0 ∧ R + S < audio.length then
    Event.sample (audio.take (R + S)) ::
      ((if gc then [Event.gcId cid] else []) ++
        ((if lc then [Event.lcEmb (lc_embedding mags (audio.take (R + S)))] else []) ++
          windowLoop gc lc mags cid R S (audio.drop S)))
  else []
termination_by audio.length
decreasing_by
  simp only [List.length_drop]
  omega

/-- The block of queue pushes belonging to one window: the sample push,
then the category-id push iff `gc`, then the conditioning push iff `lc`. -/
def windowEvents (gc lc : Bool) (mags : List ℚ → List (List ℚ)) (cid : ℤ)
    (w : List ℚ) : List Event :=
  Event.sample w ::
    ((if gc then [Event.gcId cid] else []) ++
      (if lc then [Event.lcEmb (lc_embedding mags w)] else []))

/-- Embedding of the per-file body of `thread_main` (lines 177-223): when
a silence threshold is configured, replace the audio by its trimmed form
(the external per-frame energies enter as `energy`) and print a warning
if the result is empty (the source then falls through: there is no
`continue`); left-pad with `receptive_field` zeros (line 187); then
either run the window-emission loop (truthy `sample_size`) or push the
whole padded waveform once followed by the category id if `gc_enabled`
(lines 218-223, which contain no local-conditioning push). -/
def processFile (gc lc : Bool) (mags : List ℚ → List (List ℚ)) (thr : Option ℚ)
    (R : ℕ) (ssize : Option ℕ) (cid : ℤ) (audio energy : List ℚ) : List Event :=
  let audio1 := match thr with
    | some t => trim_silence audio energy t
    | none => audio
  let warns : List Event := match thr with
    | some _ => if audio1.length = 0 then [Event.warnSilence] else []
    | none => []
  let padded := List.replicate R (0 : ℚ) ++ audio1
  warns ++
    (if truthy ssize then windowLoop gc lc mags cid R (ssize.getD 0) padded
     else Event.sample padded :: (if gc then [Event.gcId cid] else []))

/-- Embedding of one epoch of the file loop of `thread_main`
(lines 171-223): for each file, the coordinator's `should_stop` is
sampled once, at the top of the `for` loop (lines 174-176), and the
worker breaks out if it is set; otherwise the whole file is processed.
The external cancellation signal is modelled as a predicate on the number
of sample pushes completed so far — the model's notion of elapsed time —
so that a signal arriving mid-file is the function that is true from some
push count onward. -/
def threadEpoch (gc lc : Bool) (mags : List ℚ → List (List ℚ)) (thr : Option ℚ)
    (R : ℕ) (ssize : Option ℕ) (shouldStop : ℕ → Bool) :
    ℕ → List (ℤ × List ℚ × List ℚ) → List Event
  | _, [] => []
  | pushes, (cid, audio, energy) :: rest =>
    if shouldStop pushes then []
    else
      processFile gc lc mags thr R ssize cid audio energy ++
        threadEpoch gc lc mags thr R ssize shouldStop
          (pushes + countSample (processFile gc lc mags thr R ssize cid audio energy)) rest

/-- A trivial stand-in for the external pitch primitive, used only to
instantiate closed statements. -/
def mags0 : List ℚ → List (List ℚ) := fun _ => []

/-- Numeric value of a digit run, as `int()` of the matched group. -/
def digitsVal (ds : List Char) : ℕ :=
  ds.foldl (fun n c => 10 * n + (c.toNat - 48)) 0

/-- Match of the regex `p([0-9]+)_([0-9]+)\.wav` (FILE_PATTERN, line 11)
anchored at the head of the character list: a literal `p`, a maximal
nonempty digit run (first group), `_`, a maximal nonempty digit run
(second group), then `.wav`.  The two greedy digit runs need no
backtracking because neither `_` nor `.` is a digit. -/
def matchAt (cs : List Char) : Option (ℕ × ℕ) :=
  match cs with
  | 'p' :: rest =>
    let ds1 := rest.takeWhile Char.isDigit
    if ds1.isEmpty then none else
      match rest.drop ds1.length with
      | '_' :: rest2 =>
        let ds2 := rest2.takeWhile Char.isDigit
        if ds2.isEmpty then none else
          if (rest2.drop ds2.length).take 4 = ['.', 'w', 'a', 'v']
          then some (digitsVal ds1, digitsVal ds2)
          else none
      | _ => none
  | _ => none

/-- The first (leftmost) match of FILE_PATTERN in a filename, as produced
by `re.findall(...)[0]`; `none` when the pattern does not occur. -/
def findFirstMatch : List Char → Option (ℕ × ℕ)
  | [] => none
  | c :: rest =>
    match matchAt (c :: rest) with
    | some r => some r
    | none => findFirstMatch rest

/-- Embedding of `not_all_have_id` (lines 81-89): true iff some filename
has no match of FILE_PATTERN. -/
def not_all_have_id : List String → Bool
  | [] => false
  | f :: rest => if findFirstMatch f.toList = none then true else not_all_have_id rest

/-- The update of `min_id` on lines 21-22: set when unset or when the new
id is smaller. -/
def updateMin (acc : Option ℕ) (pid : ℕ) : Option ℕ :=
  match acc with
  | none => some pid
  | some m => if pid < m then some pid else some m

/-- The update of `max_id` on lines 23-24: set when unset or when the new
id is larger. -/
def updateMax (acc : Option ℕ) (pid : ℕ) : Option ℕ :=
  match acc with
  | none => some pid
  | some m => if pid > m then some pid else some m

/-- The loop of `get_category_cardinality` (lines 18-24).  The source
indexes `findall(filename)[0]`, which raises IndexError on a filename
without a match; that failure is modelled as `none`. -/
def catCardLoop : Option ℕ → Option ℕ → List String → Option (Option ℕ × Option ℕ)
  | minAcc, maxAcc, [] => some (minAcc, maxAcc)
  | minAcc, maxAcc, f :: rest =>
    match findFirstMatch f.toList with
    | none => none
    | some (pid, _) => catCardLoop (updateMin minAcc pid) (updateMax maxAcc pid) rest

/-- Embedding of `get_category_cardinality` (lines 14-26): `(min_id,
max_id)` of the first numeric group over the files, starting from
`(None, None)`; `none` models the IndexError on a non-matching name. -/
def get_category_cardinality (files : List String) : Option (Option ℕ × Option ℕ) :=
  catCardLoop none none files

/-- The pianist ids of the files that match FILE_PATTERN, in order. -/
def idsOf (files : List String) : List ℕ :=
  files.filterMap (fun f => (findFirstMatch f.toList).map Prod.fst)

/-- Embedding of the sizing of the embedding table in
`AudioReader.__init__` (lines 143-152): `_, c = get_category_cardinality
(files); c += 1`.  `none` models the failure paths (IndexError inside the
call, or `None + 1`). -/
def initGcCardinality (files : List String) : Option ℕ :=
  match get_category_cardinality files with
  | some (_, some m) => some (m + 1)
  | _ => none

/-- Example row of piptrack magnitudes used to instantiate closed
statements; eight nonzero entries. -/
def rowEx : List ℚ := [0, 5, 3, 0, 2, 8, 1, 9, 4, 7]

/-- Example file list with pianist ids 2, 5, 9. -/
def filesEx : List String := ["p2_1.wav", "p5_1.wav", "p9_4.wav"]

@[simp] lemma sampleEvents_nil : sampleEvents [] = [] := rfl

@[simp] lemma sampleEvents_cons_sample (w : List ℚ) (tr : List Event) :
    sampleEvents (Event.sample w :: tr) = w :: sampleEvents tr := rfl

@[simp] lemma sampleEvents_cons_gcId (i : ℤ) (tr : List Event) :
    sampleEvents (Event.gcId i :: tr) = sampleEvents tr := rfl

@[simp] lemma sampleEvents_cons_lcEmb (e : List (List ℚ)) (tr : List Event) :
    sampleEvents (Event.lcEmb e :: tr) = sampleEvents tr := rfl

@[simp] lemma sampleEvents_cons_warn (tr : List Event) :
    sampleEvents (Event.warnSilence :: tr) = sampleEvents tr := rfl

@[simp] lemma sampleEvents_append (a b : List Event) :
    sampleEvents (a ++ b) = sampleEvents a ++ sampleEvents b :=
  List.filterMap_append a b _

@[simp] lemma gcIdEvents_nil : gcIdEvents [] = [] := rfl

@[simp] lemma gcIdEvents_cons_sample (w : List ℚ) (tr : List Event) :
    gcIdEvents (Event.sample w :: tr) = gcIdEvents tr := rfl

@[simp] lemma gcIdEvents_cons_gcId (i : ℤ) (tr : List Event) :
    gcIdEvents (Event.gcId i :: tr) = i :: gcIdEvents tr := rfl

@[simp] lemma gcIdEvents_cons_lcEmb (e : List (List ℚ)) (tr : List Event) :
    gcIdEvents (Event.lcEmb e :: tr) = gcIdEvents tr := rfl

@[simp] lemma gcIdEvents_cons_warn (tr : List Event) :
    gcIdEvents (Event.warnSilence :: tr) = gcIdEvents tr := rfl

@[simp] lemma gcIdEvents_append (a b : List Event) :
    gcIdEvents (a ++ b) = gcIdEvents a ++ gcIdEvents b :=
  List.filterMap_append a b _

@[simp] lemma lcEmbEvents_nil : lcEmbEvents [] = [] := rfl

@[simp] lemma lcEmbEvents_cons_sample (w : List ℚ) (tr : List Event) :
    lcEmbEvents (Event.sample w :: tr) = lcEmbEvents tr := rfl

@[simp] lemma lcEmbEvents_cons_gcId (i : ℤ) (tr : List Event) :
    lcEmbEvents (Event.gcId i :: tr) = lcEmbEvents tr := rfl

@[simp] lemma lcEmbEvents_cons_lcEmb (e : List (List ℚ)) (tr : List Event) :
    lcEmbEvents (Event.lcEmb e :: tr) = e :: lcEmbEvents tr := rfl

@[simp] lemma lcEmbEvents_cons_warn (tr : List Event) :
    lcEmbEvents (Event.warnSilence :: tr) = lcEmbEvents tr := rfl

@[simp] lemma lcEmbEvents_append (a b : List Event) :
    lcEmbEvents (a ++ b) = lcEmbEvents a ++ lcEmbEvents b :=
  List.filterMap_append a b _

lemma countSample_append (a b : List Event) :
    countSample (a ++ b) = countSample a + countSample b := by
  simp [countSample]

/-- Unfolding of the window loop seen through the sample queue: either
one window followed by the loop on the advanced audio, or nothing. -/
lemma sampleEvents_windowLoop (gc lc : Bool) (mags : List ℚ → List (List ℚ))
    (cid : ℤ) (R S : ℕ) (audio : List ℚ) :
    sampleEvents (windowLoop gc lc mags cid R S audio) =
      if S ≠ 0 ∧ R + S < audio.length then
        audio.take (R + S) :: sampleEvents (windowLoop gc lc mags cid R S (audio.drop S))
      else [] := by
  rw [windowLoop]
  split
  · cases gc <;> cases lc <;> simp
  · rfl

/-- Number of windows emitted by the loop, in closed form. -/
lemma countSample_windowLoop (gc lc : Bool) (mags : List ℚ → List (List ℚ))
    (cid : ℤ) (R : ℕ) {S : ℕ} (hS : 0 < S) (audio : List ℚ) :
    countSample (windowLoop gc lc mags cid R S audio) = (audio.length - R - 1) / S := by
  induction audio using windowLoop.induct gc lc mags cid R S with
  | case1 audio h ih =>
    rw [countSample, sampleEvents_windowLoop, if_pos h, List.length_cons]
    rw [show (sampleEvents (windowLoop gc lc mags cid R S (audio.drop S))).length =
          countSample (windowLoop gc lc mags cid R S (audio.drop S)) from rfl, ih]
    simp only [List.length_drop]
    obtain ⟨-, h2⟩ := h
    rw [show audio.length - R - 1 = (audio.length - S - R - 1) + S by omega,
      Nat.add_div_right _ hS]
  | case2 audio h =>
    rw [countSample, sampleEvents_windowLoop, if_neg h, List.length_nil,
      eq_comm, Nat.div_eq_of_lt]
    push_neg at h
    have := h (by omega)
    omega

/-- The k-th window emitted by the loop is the slice starting at sample
k * S of the (padded) audio. -/
lemma sampleEvents_windowLoop_get? (gc lc : Bool) (mags : List ℚ → List (List ℚ))
    (cid : ℤ) (R : ℕ) {S : ℕ} (hS : 0 < S) :
    ∀ (audio : List ℚ) (k : ℕ), k < countSample (windowLoop gc lc mags cid R S audio) →
      (sampleEvents (windowLoop gc lc mags cid R S audio)).get? k =
        some ((audio.drop (k * S)).take (R + S)) := by
  intro audio
  induction audio using windowLoop.induct gc lc mags cid R S with
  | case1 audio h ih =>
    intro k hk
    rw [sampleEvents_windowLoop, if_pos h]
    match k with
    | 0 => simp
    | Nat.succ k =>
      rw [List.get?_cons_succ]
      have hk' : k < countSample (windowLoop gc lc mags cid R S (audio.drop S)) := by
        rw [countSample, sampleEvents_windowLoop, if_pos h, List.length_cons] at hk
        rw [countSample]
        exact Nat.lt_of_succ_lt_succ hk
      rw [ih k hk', List.drop_drop, show S + k * S = (k + 1) * S by ring]
  | case2 audio h =>
    intro k hk
    rw [countSample, sampleEvents_windowLoop, if_neg h] at hk
    simp at hk

/-- C1 counterexample: with receptive_field R = 1, sample_size S = 2 and
a padded waveform of length L = 6 (so L > R + S), the segmentation loop
of thread_main emits 2 windows (lengths 6 and 4 both exceed the window
length 3), while the claimed formula floor((L - R - S) / S) =
floor(3 / 2) gives 1.  The loop runs while the REMAINING length exceeds
R + S and advances by S, which yields the ceiling, not the floor, of
(L - R - S) / S. -/
theorem windowCount_floor_cex :
    countSample (windowLoop false false mags0 0 1 2 [0, 1, 2, 3, 4, 5]) = 2 ∧
    (6 - 1 - 2) / 2 = 1 := by
  constructor
  · rw [countSample_windowLoop false false mags0 0 1 (by norm_num) [0, 1, 2, 3, 4, 5]]
    decide
  · norm_num

/-- C1 (amended): for every padded waveform of length L, with
receptive_field R and a nonzero configured sample_size S, the
segmentation loop in thread_main emits exactly ceil((L - R - S) / S) =
floor((L - R - S - 1) / S) + 1 windows when L > R + S, and zero windows
otherwise; the claimed floor((L - R - S) / S) holds only when S divides
L - R - S. -/
theorem windowCount_ceil (gc lc : Bool) (mags : List ℚ → List (List ℚ)) (cid : ℤ)
    (R S : ℕ) (hS : 0 < S) (audio : List ℚ) :
    countSample (windowLoop gc lc mags cid R S audio) =
      if R + S < audio.length then (audio.length - R - S - 1) / S + 1 else 0 := by
  rw [countSample_windowLoop gc lc mags cid R hS audio]
  split
  · next hlt =>
    rw [show audio.length - R - 1 = (audio.length - R - S - 1) + S by omega,
      Nat.add_div_right _ hS]
  · next hge =>
    rw [Nat.div_eq_of_lt]
    omega

/-- C1 witness: the amended count at a concrete waveform of length 7
with R = 1, S = 2. -/
theorem windowCount_ceil_witness :
    0 < 2 ∧
    countSample (windowLoop false false mags0 0 1 2 [0, 1, 2, 3, 4, 5, 6]) =
      if 1 + 2 < ([0, 1, 2, 3, 4, 5, 6] : List ℚ).length then (7 - 1 - 2 - 1) / 2 + 1 else 0 :=
  ⟨by norm_num, by
    have h := windowCount_ceil false false mags0 0 1 2 (by norm_num) [0, 1, 2, 3, 4, 5, 6]
    simpa using h⟩

/-- C6: in windowed mode every window emitted by the segmentation loop
has length exactly receptive_field + sample_size, and each later window's
first R samples equal the former window's last R samples (its samples
from position S on), i.e. consecutive windows overlap in exactly R
samples. -/
theorem window_shape_overlap (gc lc : Bool) (mags : List ℚ → List (List ℚ)) (cid : ℤ)
    (R S : ℕ) (hS : 0 < S) (audio : List ℚ) :
    (∀ k, k < countSample (windowLoop gc lc mags cid R S audio) →
      ∃ w : List ℚ,
        (sampleEvents (windowLoop gc lc mags cid R S audio)).get? k = some w ∧
        w.length = R + S) ∧
    (∀ k, k + 1 < countSample (windowLoop gc lc mags cid R S audio) →
      ∃ w w' : List ℚ,
        (sampleEvents (windowLoop gc lc mags cid R S audio)).get? k = some w ∧
        (sampleEvents (windowLoop gc lc mags cid R S audio)).get? (k + 1) = some w' ∧
        w'.take R = w.drop S ∧ (w.drop S).length = R) := by
  have hcount := countSample_windowLoop gc lc mags cid R hS audio
  have hlen : ∀ k, k < countSample (windowLoop gc lc mags cid R S audio) →
      R + S ≤ audio.length - k * S := by
    intro k hk
    rw [hcount] at hk
    have h1 : (k + 1) * S ≤ audio.length - R - 1 := by
      have := (Nat.le_div_iff_mul_le hS).mp (Nat.succ_le_of_lt hk)
      exact this
    have h2 : (k + 1) * S = k * S + S := by ring
    have h3 : k * S + S ≤ audio.length - R - 1 := h2 ▸ h1
    omega
  constructor
  · intro k hk
    refine ⟨(audio.drop (k * S)).take (R + S),
      sampleEvents_windowLoop_get? gc lc mags cid R hS audio k hk, ?_⟩
    rw [List.length_take, List.length_drop]
    exact min_eq_left (hlen k hk)
  · intro k hk1
    have hk : k < countSample (windowLoop gc lc mags cid R S audio) := by omega
    refine ⟨(audio.drop (k * S)).take (R + S), (audio.drop ((k + 1) * S)).take (R + S),
      sampleEvents_windowLoop_get? gc lc mags cid R hS audio k hk,
      sampleEvents_windowLoop_get? gc lc mags cid R hS audio (k + 1) hk1, ?_, ?_⟩
    · rw [List.take_take, min_eq_left (Nat.le_add_right R S), List.drop_take,
        List.drop_drop, show R + S - S = R by omega,
        show k * S + S = (k + 1) * S by ring]
    · rw [List.length_drop, List.length_take, List.length_drop]
      have := hlen k hk
      omega

/-- C6 witness: window shape and overlap at a concrete waveform of
length 8 with R = 2, S = 3. -/
theorem window_shape_overlap_witness :
    0 < 3 ∧
    ((∀ k, k < countSample (windowLoop false false mags0 0 2 3 [0, 1, 2, 3, 4, 5, 6, 7]) →
      ∃ w : List ℚ,
        (sampleEvents (windowLoop false false mags0 0 2 3 [0, 1, 2, 3, 4, 5, 6, 7])).get? k = some w ∧
        w.length = 2 + 3) ∧
    (∀ k, k + 1 < countSample (windowLoop false false mags0 0 2 3 [0, 1, 2, 3, 4, 5, 6, 7]) →
      ∃ w w' : List ℚ,
        (sampleEvents (windowLoop false false mags0 0 2 3 [0, 1, 2, 3, 4, 5, 6, 7])).get? k = some w ∧
        (sampleEvents (windowLoop false false mags0 0 2 3 [0, 1, 2, 3, 4, 5, 6, 7])).get? (k + 1) = some w' ∧
        w'.take 2 = w.drop 3 ∧ (w.drop 3).length = 2)) :=
  ⟨by norm_num, window_shape_overlap false false mags0 0 2 3 (by norm_num) [0, 1, 2, 3, 4, 5, 6, 7]⟩

/-- C2 counterexample: in whole-file mode (sample_size None) with
lc_enabled = true, the else-branch of thread_main (lines 218-223) pushes
the padded waveform and the category id but never pushes to the
local-conditioning queue, so the lc queue does NOT receive one push for
the (whole-file) window: one sample push, zero lc pushes.  A consumer
draining equal counts from the sample and lc queues would not receive
aligned pairs. -/
theorem queue_order_cex :
    countSample (processFile true true mags0 none 0 none 5 [1] []) = 1 ∧
    countLc (processFile true true mags0 none 0 none 5 [1] []) = 0 := by
  constructor <;> rfl

/-- C2 (amended): in windowed mode the trace of the segmentation loop is
exactly one block per emitted window — the sample push, then (iff
gc_enabled) the category-id push, then (iff lc_enabled) the
conditioning push, in that order — so a consumer draining equal counts
from each enabled queue receives aligned triples; in whole-file mode,
however, only the sample push and (iff gc_enabled) the id push happen:
the lc queue receives nothing regardless of lc_enabled. -/
theorem queue_order_per_window (gc lc : Bool) (mags : List ℚ → List (List ℚ))
    (thr : Option ℚ) (cid : ℤ) (R S : ℕ) (ssize : Option ℕ) (audio energy : List ℚ) :
    (windowLoop gc lc mags cid R S audio =
      (sampleEvents (windowLoop gc lc mags cid R S audio)).flatMap (windowEvents gc lc mags cid)) ∧
    (truthy ssize = false →
      countSample (processFile gc lc mags thr R ssize cid audio energy) = 1 ∧
      countGc (processFile gc lc mags thr R ssize cid audio energy) = (if gc then 1 else 0) ∧
      countLc (processFile gc lc mags thr R ssize cid audio energy) = 0) := by
  constructor
  · induction audio using windowLoop.induct gc lc mags cid R S with
    | case1 audio h ih =>
      conv_rhs => rw [sampleEvents_windowLoop, if_pos h, List.flatMap_cons]
      conv_lhs => rw [windowLoop, dif_pos h, ih]
      simp [windowEvents, List.append_assoc]
    | case2 audio h =>
      rw [sampleEvents_windowLoop, if_neg h]
      conv_lhs => rw [windowLoop, dif_neg h]
      simp
  · intro hs
    rcases thr with _ | t
    · cases gc <;> simp [processFile, hs, countSample, countGc, countLc]
    · by_cases hempty : (trim_silence audio energy t).length = 0 <;> cases gc <;>
        simp [processFile, hs, hempty, countSample, countGc, countLc]

/-- C2 witness: whole-file counts at a concrete configuration with both
conditioning kinds enabled. -/
theorem queue_order_witness :
    truthy none = false ∧
    (countSample (processFile true true mags0 none 3 none 7 [1, 2] [1]) = 1 ∧
      countGc (processFile true true mags0 none 3 none 7 [1, 2] [1]) = (if true then 1 else 0) ∧
      countLc (processFile true true mags0 none 3 none 7 [1, 2] [1]) = 0) :=
  ⟨rfl, (queue_order_per_window true true mags0 none 7 3 1 none [1, 2] [1]).2 rfl⟩

/-- C4 counterexample: whole-file mode, silence threshold 0, a file whose
trimmed waveform is empty (its single frame energy 0 does not exceed the
threshold).  The source prints the warning but has no `continue`
(lines 181-185 fall through), so the padded all-zero waveform of length
receptive_field = 2 IS enqueued on the sample queue: one sample push,
where the claim requires none. -/
theorem silence_skip_cex :
    trim_silence [1, 1, 1] [0] 0 = [] ∧
    countSample (processFile false false mags0 (some 0) 2 none 0 [1, 1, 1] [0]) = 1 := by
  constructor <;> rfl

/-- C4 (amended): if silence trimming leaves a zero-length waveform, the
worker emits the warning diagnostic and does not fail; in windowed mode
nothing is enqueued on any queue (the padded length R is never greater
than the window length R + S), but in whole-file mode the worker still
enqueues the R-sample zero padding (and, iff gc_enabled, the category
id), because the warning branch falls through instead of skipping the
file. -/
theorem silence_skip (gc lc : Bool) (mags : List ℚ → List (List ℚ)) (t : ℚ)
    (R : ℕ) (ssize : Option ℕ) (cid : ℤ) (audio energy : List ℚ)
    (hempty : trim_silence audio energy t = []) :
    (truthy ssize = true →
      processFile gc lc mags (some t) R ssize cid audio energy = [Event.warnSilence]) ∧
    (truthy ssize = false →
      processFile gc lc mags (some t) R ssize cid audio energy =
        Event.warnSilence :: Event.sample (List.replicate R 0) ::
          (if gc then [Event.gcId cid] else [])) := by
  constructor
  · intro hs
    simp only [processFile, hempty, hs, List.length_nil, if_pos, List.append_nil, if_true]
    rw [windowLoop]
    rw [dif_neg]
    · simp
    · intro hcontra
      have h2 := hcontra.2
      rw [List.length_replicate] at h2
      omega
  · intro hs
    simp [processFile, hempty, hs]

/-- C4 witness: the windowed-mode part at a concrete silent file. -/
theorem silence_skip_witness :
    trim_silence [1] [0] 0 = [] ∧ truthy (some 3) = true ∧
    processFile false false mags0 (some 0) 1 (some 3) 0 [1] [0] = [Event.warnSilence] :=
  ⟨rfl, rfl, (silence_skip false false mags0 0 1 (some 3) 0 [1] [0] rfl).1 rfl⟩

/-- C9: since line 189 tests the truthiness of sample_size, a configured
sample_size of 0 takes the same else-branch as an absent sample_size:
the per-file trace with sample_size = 0 is identical to whole-file mode,
and the entire padded waveform is pushed exactly once (no sliding-window
segmentation). -/
theorem sample_size_zero_whole_file (gc lc : Bool) (mags : List ℚ → List (List ℚ))
    (thr : Option ℚ) (R : ℕ) (cid : ℤ) (audio energy : List ℚ) :
    processFile gc lc mags thr R (some 0) cid audio energy =
      processFile gc lc mags thr R none cid audio energy ∧
    countSample (processFile gc lc mags thr R (some 0) cid audio energy) = 1 := by
  constructor
  · rfl
  · rcases thr with _ | t
    · cases gc <;> simp [processFile, truthy, countSample]
    · by_cases hempty : (trim_silence audio energy t).length = 0 <;> cases gc <;>
        simp [processFile, truthy, hempty, countSample]

/-- C3 counterexample: one file whose padded waveform yields 5 windows
(raw length 11, R = 1, S = 2, padded length 12), with the cancellation
signal modelled as set from the completion of the FIRST sample push
onward (shouldStop q = decide (1 <= q)).  The worker still pushes all 5
windows: the only should_stop check is at the top of the per-file loop
(lines 174-176, before any push), and the window-emission loop
(lines 193-217) contains no check, so 4 windows — not at most one — are
pushed after the signal is set.  This refutes "stops within one window's
processing latency"; nothing in the source gives an in-flight push a
cancellation path either. -/
theorem cancel_checked_cex :
    countSample (threadEpoch false false mags0 none 1 (some 2) (fun q => decide (1 ≤ q)) 0
      [(0, [0, 1, 2, 3, 4, 5, 6, 7, 8, 9, 10], [])]) = 5 ∧
    (fun q => decide (1 ≤ q)) 1 = true := by
  constructor
  · have h1 : countSample (processFile false false mags0 none 1 (some 2) 0
        [0, 1, 2, 3, 4, 5, 6, 7, 8, 9, 10] []) = 5 := by
      simp [processFile, truthy]
      rw [countSample_windowLoop false false mags0 0 1 (by norm_num)]
      decide
    simp only [threadEpoch]
    rw [if_neg (by decide)]
    rw [List.append_nil]
    exact h1
  · rfl

/-- C3 (amended): the worker observes the shared cancellation signal only
at the top of the per-FILE loop: if should_stop holds there, nothing
further is emitted (the worker stops before starting the next file,
i.e. within one file's processing latency); if it does not hold, the
whole file — all of its windows — is processed before the next check. -/
theorem cancel_checked_per_file (gc lc : Bool) (mags : List ℚ → List (List ℚ))
    (thr : Option ℚ) (R : ℕ) (ssize : Option ℕ) (shouldStop : ℕ → Bool) (p : ℕ)
    (cid : ℤ) (audio energy : List ℚ) (rest : List (ℤ × List ℚ × List ℚ)) :
    (shouldStop p = true →
      ∀ files, threadEpoch gc lc mags thr R ssize shouldStop p files = []) ∧
    (shouldStop p = false →
      threadEpoch gc lc mags thr R ssize shouldStop p ((cid, audio, energy) :: rest) =
        processFile gc lc mags thr R ssize cid audio energy ++
          threadEpoch gc lc mags thr R ssize shouldStop
            (p + countSample (processFile gc lc mags thr R ssize cid audio energy)) rest) := by
  constructor
  · intro h files
    cases files with
    | nil => rfl
    | cons f fs =>
      obtain ⟨c, a, e⟩ := f
      simp [threadEpoch, h]
  · intro h
    simp [threadEpoch, h]

/-- C3 witness: both file-boundary behaviours at concrete inputs. -/
theorem cancel_checked_witness :
    ((fun _ : ℕ => true) 0 = true ∧
      threadEpoch false false mags0 none 1 (some 2) (fun _ => true) 0 [(0, [1], [])] = []) ∧
    ((fun _ : ℕ => false) 0 = false ∧
      threadEpoch false false mags0 none 1 (some 2) (fun _ => false) 0 [(0, [1], [])] =
        processFile false false mags0 none 1 (some 2) 0 [1] [] ++
          threadEpoch false false mags0 none 1 (some 2) (fun _ => false)
            (0 + countSample (processFile false false mags0 none 1 (some 2) 0 [1] [])) []) :=
  ⟨⟨rfl, (cancel_checked_per_file false false mags0 none 1 (some 2) (fun _ => true) 0 0 [1] [] []).1
      rfl [(0, [1], [])]⟩,
    ⟨rfl, (cancel_checked_per_file false false mags0 none 1 (some 2) (fun _ => false) 0 0 [1] [] []).2
      rfl⟩⟩

/-- C5 counterexample: a constant waveform of 600 ones, every sample at
amplitude 1.  Under the external energy primitive's documented framing
(hop 512, centred frames: rmse_num_frames 600 = 2 frames, both of energy
1 for this constant signal), every frame's energy exceeds the threshold
0, yet trim_silence does not return the waveform unchanged: it returns
`audio[0*512 : 1*512]`, the first 512 samples, because the slice ends at
the START sample offset of the last loud frame (exclusive), dropping the
trailing 88 samples. -/
theorem trim_silence_unchanged_cex :
    (∀ e ∈ List.replicate (rmse_num_frames 600) (1 : ℚ), 0 < e) ∧
    trim_silence (List.replicate 600 (1 : ℚ)) (List.replicate (rmse_num_frames 600) 1) 0 ≠
      List.replicate 600 (1 : ℚ) := by
  constructor
  · decide
  · intro hcontra
    have hlen := congrArg List.length hcontra
    have heval : trim_silence (List.replicate 600 (1 : ℚ))
        (List.replicate (rmse_num_frames 600) 1) 0 =
        ((List.replicate 600 (1 : ℚ)).take (1 * 512)).drop (0 * 512) := by
      have hf : ((List.range (List.replicate (rmse_num_frames 600) (1 : ℚ)).length).filter
          (fun i => decide ((0 : ℚ) < (List.replicate (rmse_num_frames 600) (1 : ℚ)).getD i 0))) =
          [0, 1] := by decide
      simp only [trim_silence]
      rw [hf]
      rfl
    rw [heval] at hlen
    simp only [List.length_drop, List.length_take, List.length_replicate] at hlen
    omega

/-- C5 (amended): trim_silence returns a zero-length waveform when no
frame's energy exceeds the threshold; when every frame's energy exceeds
the threshold it returns the PREFIX `audio[0 : (num_frames - 1) * 512]`
— from the start offset of the first loud frame to the start offset of
the last loud frame, exclusive — which equals the original waveform only
when `(num_frames - 1) * 512` reaches the waveform's length (e.g. a
length divisible by 512 under the library's centred framing); in general
the samples from the last frame's start offset onward are dropped. -/
theorem trim_silence_amended (audio energy : List ℚ) (t : ℚ) :
    ((∀ e ∈ energy, e ≤ t) → trim_silence audio energy t = []) ∧
    (energy ≠ [] → (∀ e ∈ energy, t < e) →
      trim_silence audio energy t = audio.take ((energy.length - 1) * 512)) := by
  have hmem : ∀ i, i < energy.length → energy.getD i 0 ∈ energy := by
    intro i hi
    rw [List.getD_eq_getElem?_getD, List.getElem?_eq_getElem hi]
    exact List.getElem_mem hi
  constructor
  · intro hall
    have hf : (List.range energy.length).filter (fun i => decide (t < energy.getD i 0)) = [] := by
      rw [List.filter_eq_nil_iff]
      intro i hi
      rw [List.mem_range] at hi
      simp only [decide_eq_true_eq, not_lt]
      exact hall _ (hmem i hi)
    simp only [trim_silence]
    rw [hf]
    rfl
  · intro hne hall
    obtain ⟨m, hm⟩ : ∃ m, energy.length = m + 1 := by
      cases energy with
      | nil => exact absurd rfl hne
      | cons a l => exact ⟨l.length, by simp⟩
    have hf : (List.range energy.length).filter (fun i => decide (t < energy.getD i 0)) =
        List.range energy.length := by
      rw [List.filter_eq_self]
      intro i hi
      rw [List.mem_range] at hi
      simp only [decide_eq_true_eq]
      exact hall _ (hmem i hi)
    have hh : (List.range (m + 1)).head? = some 0 := by
      rw [List.range_succ_eq_map]
      rfl
    have hl : (List.range (m + 1)).getLast? = some m := by
      rw [List.range_succ]
      exact List.getLast?_concat _
    simp only [trim_silence]
    rw [hf, hm, hh, hl]
    simp

/-- C5 witness: both amended behaviours at concrete inputs: two quiet
frames against threshold 2 give the empty waveform; two loud frames
against threshold 0 give the prefix up to the last frame's start
offset. -/
theorem trim_silence_witness :
    (∀ e ∈ ([1, 1] : List ℚ), e ≤ 2) ∧ trim_silence [5, 6] [1, 1] 2 = [] ∧
    (([1, 1] : List ℚ) ≠ []) ∧ (∀ e ∈ ([1, 1] : List ℚ), (0 : ℚ) < e) ∧
    trim_silence [5, 6, 7] [1, 1] 0 = [5, 6, 7].take ((([1, 1] : List ℚ).length - 1) * 512) :=
  ⟨by decide, (trim_silence_amended [5, 6] [1, 1] 2).1 (by decide), by decide, by decide,
    (trim_silence_amended [5, 6, 7] [1, 1] 0).2 (by decide) (by decide)⟩

lemma updateMin_some (m0 pid : ℕ) :
    updateMin (some m0) pid = some (if pid < m0 then pid else m0) := by
  show (if pid < m0 then some pid else some m0) = some (if pid < m0 then pid else m0)
  split <;> rfl

lemma updateMax_some (M0 pid : ℕ) :
    updateMax (some M0) pid = some (if pid > M0 then pid else M0) := by
  show (if pid > M0 then some pid else some M0) = some (if pid > M0 then pid else M0)
  split <;> rfl

lemma idsOf_cons_match (f : String) (rest : List String) (pid rid : ℕ)
    (h : findFirstMatch f.toList = some (pid, rid)) :
    idsOf (f :: rest) = pid :: idsOf rest := by
  have h' : (findFirstMatch f.toList).map Prod.fst = some pid := by rw [h]; rfl
  simp only [idsOf, List.filterMap_cons, h']

/-- Invariant of the accumulator loop of get_category_cardinality: with
both accumulators set, a fully matching file list yields the running
minimum and maximum. -/
lemma catCardLoop_minmax : ∀ (files : List String),
    (∀ f ∈ files, (findFirstMatch f.toList).isSome = true) →
    ∀ m0 M0 : ℕ, ∃ m M : ℕ,
      catCardLoop (some m0) (some M0) files = some (some m, some M) ∧
      m ≤ m0 ∧ M0 ≤ M ∧
      (m = m0 ∨ m ∈ idsOf files) ∧ (M = M0 ∨ M ∈ idsOf files) ∧
      ∀ x ∈ idsOf files, m ≤ x ∧ x ≤ M := by
  intro files
  induction files with
  | nil =>
    intro _ m0 M0
    exact ⟨m0, M0, rfl, le_refl _, le_refl _, Or.inl rfl, Or.inl rfl, by simp [idsOf]⟩
  | cons f rest ih =>
    intro hall m0 M0
    obtain ⟨⟨pid, rid⟩, hmatch⟩ := Option.isSome_iff_exists.mp (hall f (by simp))
    have hrest : ∀ g ∈ rest, (findFirstMatch g.toList).isSome = true := fun g hg =>
      hall g (by simp [hg])
    obtain ⟨m, M, heq, hm0, hM0, hmor, hMor, hbound⟩ :=
      ih hrest (if pid < m0 then pid else m0) (if pid > M0 then pid else M0)
    refine ⟨m, M, ?_, ?_, ?_, ?_, ?_, ?_⟩
    · show catCardLoop (some m0) (some M0) (f :: rest) = some (some m, some M)
      simp only [catCardLoop, hmatch, updateMin_some, updateMax_some]
      exact heq
    · split at hm0 <;> omega
    · split at hM0 <;> omega
    · rcases hmor with h | h
      · by_cases hc : pid < m0
        · rw [if_pos hc] at h
          exact Or.inr (by rw [idsOf_cons_match f rest pid rid hmatch, h]; simp)
        · rw [if_neg hc] at h
          exact Or.inl h
      · exact Or.inr (by rw [idsOf_cons_match f rest pid rid hmatch]; simp [h])
    · rcases hMor with h | h
      · by_cases hc : pid > M0
        · rw [if_pos hc] at h
          exact Or.inr (by rw [idsOf_cons_match f rest pid rid hmatch, h]; simp)
        · rw [if_neg hc] at h
          exact Or.inl h
      · exact Or.inr (by rw [idsOf_cons_match f rest pid rid hmatch]; simp [h])
    · intro x hx
      rw [idsOf_cons_match f rest pid rid hmatch] at hx
      rcases List.mem_cons.mp hx with h | h
      · subst h
        constructor
        · have : m ≤ (if x < m0 then x else m0) := hm0
          split at this <;> omega
        · have : (if x > M0 then x else M0) ≤ M := hM0
          split at this <;> omega
      · exact hbound x h

/-- C8: over a non-empty list of filenames each matching FILE_PATTERN,
get_category_cardinality returns (min_id, max_id) of the first numeric
group over all files, and AudioReader.__init__ sizes the embedding table
as max_id + 1; in particular the example files with ids {2, 5, 9} give
(2, 9) and table size 10. -/
theorem get_category_cardinality_minmax :
    (∀ files : List String, files ≠ [] →
      (∀ f ∈ files, (findFirstMatch f.toList).isSome = true) →
      ∃ m M : ℕ, get_category_cardinality files = some (some m, some M) ∧
        m ∈ idsOf files ∧ M ∈ idsOf files ∧
        (∀ x ∈ idsOf files, m ≤ x ∧ x ≤ M) ∧
        initGcCardinality files = some (M + 1)) ∧
    (get_category_cardinality filesEx = some (some 2, some 9) ∧
      initGcCardinality filesEx = some 10) := by
  constructor
  · intro files hne hall
    obtain ⟨f, rest, rfl⟩ : ∃ f rest, files = f :: rest := by
      cases files with
      | nil => exact absurd rfl hne
      | cons f rest => exact ⟨f, rest, rfl⟩
    obtain ⟨⟨pid, rid⟩, hmatch⟩ := Option.isSome_iff_exists.mp (hall f (by simp))
    have hrest : ∀ g ∈ rest, (findFirstMatch g.toList).isSome = true := fun g hg =>
      hall g (by simp [hg])
    obtain ⟨m, M, heq, hm0, hM0, hmor, hMor, hbound⟩ := catCardLoop_minmax rest hrest pid pid
    have hloop : get_category_cardinality (f :: rest) = some (some m, some M) := by
      show catCardLoop none none (f :: rest) = some (some m, some M)
      simp only [catCardLoop, hmatch]
      exact heq
    refine ⟨m, M, hloop, ?_, ?_, ?_, ?_⟩
    · rw [idsOf_cons_match f rest pid rid hmatch]
      rcases hmor with h | h
      · simp [h]
      · simp [h]
    · rw [idsOf_cons_match f rest pid rid hmatch]
      rcases hMor with h | h
      · simp [h]
      · simp [h]
    · intro x hx
      rw [idsOf_cons_match f rest pid rid hmatch] at hx
      rcases List.mem_cons.mp hx with h | h
      · subst h
        omega
      · exact hbound x h
    · unfold initGcCardinality
      rw [hloop]
  · constructor
    · decide
    · decide

/-- C8 witness: the general statement applied to the example files with
ids {2, 5, 9}. -/
theorem get_category_cardinality_minmax_witness :
    (filesEx ≠ [] ∧ ∀ f ∈ filesEx, (findFirstMatch f.toList).isSome = true) ∧
    (∃ m M : ℕ, get_category_cardinality filesEx = some (some m, some M) ∧
      m ∈ idsOf filesEx ∧ M ∈ idsOf filesEx ∧
      (∀ x ∈ idsOf filesEx, m ≤ x ∧ x ≤ M) ∧
      initGcCardinality filesEx = some (M + 1)) :=
  ⟨⟨by decide, by decide⟩,
    (get_category_cardinality_minmax).1 filesEx (by decide) (by decide)⟩

lemma catCardLoop_none_of_bad : ∀ (files : List String) (minAcc maxAcc : Option ℕ)
    (f : String), f ∈ files → findFirstMatch f.toList = none →
    catCardLoop minAcc maxAcc files = none := by
  intro files
  induction files with
  | nil =>
    intro _ _ f hf
    exact absurd hf (List.not_mem_nil f)
  | cons g rest ih =>
    intro minAcc maxAcc f hf hbad
    rcases List.mem_cons.mp hf with h | h
    · subst h
      show catCardLoop minAcc maxAcc (f :: rest) = none
      simp only [catCardLoop, hbad]
    · show catCardLoop minAcc maxAcc (g :: rest) = none
      simp only [catCardLoop]
      cases hg : findFirstMatch g.toList with
      | none => rfl
      | some r =>
        obtain ⟨pid, rid⟩ := r
        exact ih _ _ f h hbad

lemma catCardLoop_isSome_of_all : ∀ (files : List String) (minAcc maxAcc : Option ℕ),
    (∀ f ∈ files, (findFirstMatch f.toList).isSome = true) →
    (catCardLoop minAcc maxAcc files).isSome = true := by
  intro files
  induction files with
  | nil => intro _ _ _; rfl
  | cons g rest ih =>
    intro minAcc maxAcc hall
    obtain ⟨⟨pid, rid⟩, hmatch⟩ := Option.isSome_iff_exists.mp (hall g (by simp))
    show (catCardLoop minAcc maxAcc (g :: rest)).isSome = true
    simp only [catCardLoop, hmatch]
    exact ih _ _ (fun f hf => hall f (by simp [hf]))

lemma not_all_have_id_false_all : ∀ files : List String,
    not_all_have_id files = false → ∀ f ∈ files, (findFirstMatch f.toList).isSome = true := by
  intro files
  induction files with
  | nil => intro _ f hf; exact absurd hf (List.not_mem_nil f)
  | cons g rest ih =>
    intro h f hf
    rw [not_all_have_id] at h
    split at h
    · simp at h
    · next hg =>
      rcases List.mem_cons.mp hf with hfg | hfr
      · subst hfg
        exact Option.isSome_iff_ne_none.mpr hg
      · exact ih h f hfr

/-- C10: get_category_cardinality indexes the first regex match of each
filename, so it fails (IndexError, modelled as `none`) as soon as some
filename has no match of FILE_PATTERN; but on the AudioReader.__init__
path it is called only with a non-empty file list on which
not_all_have_id returned False, and under those preconditions every
filename has a match and the failing branch is unreachable: the call
returns a value. -/
theorem get_category_cardinality_safety :
    (∀ (files : List String) (f : String), f ∈ files → findFirstMatch f.toList = none →
      get_category_cardinality files = none) ∧
    (∀ files : List String, files ≠ [] → not_all_have_id files = false →
      (get_category_cardinality files).isSome = true) := by
  constructor
  · intro files f hf hbad
    exact catCardLoop_none_of_bad files none none f hf hbad
  · intro files _ hfalse
    exact catCardLoop_isSome_of_all files none none (not_all_have_id_false_all files hfalse)

/-- C10 witness: a non-matching name makes the call fail; a verified list
makes it succeed. -/
theorem get_category_cardinality_safety_witness :
    ("song.wav" ∈ ["song.wav"] ∧ findFirstMatch "song.wav".toList = none ∧
      get_category_cardinality ["song.wav"] = none) ∧
    ((["p3_2.wav"] : List String) ≠ [] ∧ not_all_have_id ["p3_2.wav"] = false ∧
      (get_category_cardinality ["p3_2.wav"]).isSome = true) :=
  ⟨⟨by decide, by decide,
      get_category_cardinality_safety.1 ["song.wav"] "song.wav" (by decide) (by decide)⟩,
    ⟨by decide, by decide,
      get_category_cardinality_safety.2 ["p3_2.wav"] (by decide) (by decide)⟩⟩

lemma pitchOrder_total (row : List ℚ) (i j : ℕ) : pitchOrder row i j ∨ pitchOrder row j i := by
  rcases lt_trichotomy (rowD row i) (rowD row j) with h | h | h
  · exact Or.inr (Or.inl h)
  · rcases le_total i j with hij | hij
    · exact Or.inl (Or.inr ⟨h, hij⟩)
    · exact Or.inr (Or.inr ⟨h.symm, hij⟩)
  · exact Or.inl (Or.inl h)

lemma pitchOrder_trans (row : List ℚ) (i j l : ℕ) :
    pitchOrder row i j → pitchOrder row j l → pitchOrder row i l := by
  intro h1 h2
  rcases h1 with h1 | ⟨e1, le1⟩ <;> rcases h2 with h2 | ⟨e2, le2⟩
  · exact Or.inl (h2.trans h1)
  · exact Or.inl (e2 ▸ h1)
  · exact Or.inl (lt_of_lt_of_eq h2 e1.symm)
  · exact Or.inr ⟨e1.trans e2, le1.trans le2⟩

lemma rowD_nonneg {row : List ℚ} (hpos : ∀ x ∈ row, 0 ≤ x) (j : ℕ) : 0 ≤ rowD row j := by
  unfold rowD
  rcases lt_or_ge j row.length with h | h
  · rw [List.getD_eq_getElem?_getD, List.getElem?_eq_getElem h]
    exact hpos _ (List.getElem_mem h)
  · rw [List.getD_eq_default _ _ h]

lemma sorted_pitch (row : List ℚ) :
    List.Sorted (pitchOrder row)
      (List.insertionSort (pitchOrder row) (List.range row.length)) := by
  haveI : IsTotal ℕ (pitchOrder row) := ⟨pitchOrder_total row⟩
  haveI : IsTrans ℕ (pitchOrder row) := ⟨pitchOrder_trans row⟩
  exact List.sorted_insertionSort _ _

lemma perm_pitch (row : List ℚ) :
    List.Perm (List.insertionSort (pitchOrder row) (List.range row.length))
      (List.range row.length) :=
  List.perm_insertionSort _ _

lemma argpartitionTop_length (row : List ℚ) (k : ℕ) (hk : k ≤ row.length) :
    (argpartitionTop row k).length = k := by
  unfold argpartitionTop
  rw [List.length_take, (perm_pitch row).length_eq, List.length_range]
  omega

lemma argpartitionTop_nodup (row : List ℚ) (k : ℕ) : (argpartitionTop row k).Nodup := by
  unfold argpartitionTop
  exact ((perm_pitch row).nodup_iff.mpr (List.nodup_range _)).sublist (List.take_sublist _ _)

lemma argpartitionTop_mem_lt (row : List ℚ) (k : ℕ) :
    ∀ i ∈ argpartitionTop row k, i < row.length := by
  intro i hi
  have hmem : i ∈ List.insertionSort (pitchOrder row) (List.range row.length) :=
    List.mem_of_mem_take hi
  exact List.mem_range.mp ((perm_pitch row).mem_iff.mp hmem)

lemma argpartitionTop_dominates (row : List ℚ) (k : ℕ) :
    ∀ i ∈ argpartitionTop row k, ∀ j, j < row.length → j ∉ argpartitionTop row k →
      pitchOrder row i j := by
  intro i hi j hj hnj
  have hjs : j ∈ List.insertionSort (pitchOrder row) (List.range row.length) :=
    (perm_pitch row).mem_iff.mpr (List.mem_range.mpr hj)
  have hsplit : List.insertionSort (pitchOrder row) (List.range row.length) =
      (List.insertionSort (pitchOrder row) (List.range row.length)).take k ++
        (List.insertionSort (pitchOrder row) (List.range row.length)).drop k :=
    (List.take_append_drop k _).symm
  have hjd : j ∈ (List.insertionSort (pitchOrder row) (List.range row.length)).drop k := by
    rcases List.mem_append.mp (hsplit ▸ hjs) with h | h
    · exact absurd h hnj
    · exact h
  have hp := List.pairwise_append.mp (hsplit ▸ (sorted_pitch row))
  exact hp.2.2 i hi j hjd

lemma argpartitionTop_pos (row : List ℚ) (hpos : ∀ x ∈ row, 0 ≤ x) (k : ℕ)
    (hk : k ≤ (List.range row.length).countP (fun j => decide (0 < rowD row j))) :
    ∀ i ∈ argpartitionTop row k, 0 < rowD row i := by
  intro i hi
  by_contra hneg
  have hi0 : rowD row i = 0 := le_antisymm (not_lt.mp hneg) (rowD_nonneg hpos i)
  obtain ⟨s, t2, hst⟩ := List.append_of_mem hi
  have htk : (List.insertionSort (pitchOrder row) (List.range row.length)).take k =
      s ++ i :: t2 := hst
  have hsorted2 : List.insertionSort (pitchOrder row) (List.range row.length) =
      s ++ i :: (t2 ++ (List.insertionSort (pitchOrder row) (List.range row.length)).drop k) := by
    conv_lhs => rw [← List.take_append_drop k
      (List.insertionSort (pitchOrder row) (List.range row.length))]
    rw [htk]
    simp [List.append_assoc]
  have hpair : ∀ y ∈ t2 ++ (List.insertionSort (pitchOrder row) (List.range row.length)).drop k,
      pitchOrder row i y := by
    have hs := sorted_pitch row
    rw [hsorted2] at hs
    have h2 := (List.pairwise_append.mp hs).2.1
    exact (List.pairwise_cons.mp h2).1
  have hafter : ∀ y ∈ t2 ++ (List.insertionSort (pitchOrder row) (List.range row.length)).drop k,
      (fun j => decide (0 < rowD row j)) y = false := by
    intro y hy
    rcases hpair y hy with hlt2 | ⟨heq, -⟩
    · rw [hi0] at hlt2
      exact absurd hlt2 (not_lt.mpr (rowD_nonneg hpos y))
    · simp [← heq, hi0]
  have hcnt1 : (List.range row.length).countP (fun j => decide (0 < rowD row j)) =
      (List.insertionSort (pitchOrder row) (List.range row.length)).countP
        (fun j => decide (0 < rowD row j)) :=
    ((perm_pitch row).countP_eq _).symm
  have hcnt2 : (List.insertionSort (pitchOrder row) (List.range row.length)).countP
      (fun j => decide (0 < rowD row j)) = s.countP (fun j => decide (0 < rowD row j)) := by
    have hzero : (t2 ++ (List.insertionSort (pitchOrder row)
        (List.range row.length)).drop k).countP (fun j => decide (0 < rowD row j)) = 0 :=
      List.countP_eq_zero.mpr (by
        intro a ha
        have hfa : decide (0 < rowD row a) = false := hafter a ha
        simp [hfa])
    rw [hsorted2, List.countP_append, List.countP_cons, hzero]
    simp [hi0]
  have hslen : s.length + 1 ≤ k := by
    have hkn : k ≤ row.length := by
      refine le_trans hk ?_
      refine le_trans (List.countP_le_length _) ?_
      rw [List.length_range]
    have hlen : ((List.insertionSort (pitchOrder row) (List.range row.length)).take k).length
        = k := by
      rw [List.length_take, (perm_pitch row).length_eq, List.length_range]
      omega
    have hlen2 := congrArg List.length htk
    rw [hlen] at hlen2
    simp only [List.length_append, List.length_cons] at hlen2
    omega
  have hle : (List.range row.length).countP (fun j => decide (0 < rowD row j)) ≤ s.length := by
    rw [hcnt1, hcnt2]
    exact List.countP_le_length _
  omega

lemma cntPos_eq_cntNe (row : List ℚ) (hpos : ∀ x ∈ row, 0 ≤ x) :
    (List.range row.length).countP (fun j => decide (0 < rowD row j)) =
      ((List.range row.length).filter (fun j => decide (rowD row j ≠ 0))).length := by
  rw [← List.countP_eq_length_filter]
  apply List.countP_congr
  intro j _
  have h0 := rowD_nonneg hpos j
  rcases lt_or_eq_of_le h0 with h | h
  · simp [h, h.ne']
  · simp [← h]

lemma cntNe_eq_filter_row_aux : ∀ row : List ℚ,
    ((List.range row.length).filter (fun j => decide (row.getD j 0 ≠ 0))).length =
      (row.filter (fun x => decide (x ≠ 0))).length := by
  intro row
  induction row with
  | nil => rfl
  | cons x xs ih =>
    rw [List.length_cons, List.range_succ_eq_map, List.filter_cons, List.filter_map]
    have hcomp : ((fun j => decide ((x :: xs).getD j 0 ≠ 0)) ∘ Nat.succ) =
        (fun j => decide (xs.getD j 0 ≠ 0)) := rfl
    rw [hcomp]
    by_cases hx : x = 0
    · simp [hx]
      simpa using ih
    · simp [hx]
      simpa using ih

lemma cntNe_eq_filter_row (row : List ℚ) :
    ((List.range row.length).filter (fun j => decide (rowD row j ≠ 0))).length =
      (row.filter (fun x => decide (x ≠ 0))).length :=
  cntNe_eq_filter_row_aux row

lemma pitchInd_spec (row : List ℚ) :
    (pitchInd row).length =
      min (((List.range row.length).filter (fun j => decide (rowD row j ≠ 0))).length) 6 ∧
    (pitchInd row).Nodup ∧ (∀ i ∈ pitchInd row, i < row.length) ∧
    (∀ i ∈ pitchInd row, ∀ j, j < row.length → j ∉ pitchInd row → pitchOrder row i j) := by
  have hkn : min (((List.range row.length).filter
      (fun j => decide (rowD row j ≠ 0))).length) 6 ≤ row.length := by
    refine le_trans (min_le_left _ _) ?_
    refine le_trans (List.length_filter_le _ _) ?_
    rw [List.length_range]
  simp only [pitchInd]
  split
  · next hne =>
    exact ⟨argpartitionTop_length row _ hkn, argpartitionTop_nodup row _,
      argpartitionTop_mem_lt row _, argpartitionTop_dominates row _⟩
  · next heq =>
    rw [not_not] at heq
    exact ⟨by rw [List.length_nil, heq], List.nodup_nil,
      fun i hi => absurd hi (List.not_mem_nil i),
      fun i hi => absurd hi (List.not_mem_nil i)⟩

lemma pitchInd_pos (row : List ℚ) (hpos : ∀ x ∈ row, 0 ≤ x) :
    ∀ i ∈ pitchInd row, 0 < rowD row i := by
  simp only [pitchInd]
  split
  · next hne =>
    apply argpartitionTop_pos row hpos
    rw [cntPos_eq_cntNe row hpos]
    exact min_le_left _ _
  · next heq =>
    intro i hi
    exact absurd hi (List.not_mem_nil i)

lemma pitchEmbedRow_length (row : List ℚ) : (pitchEmbedRow row).length = row.length := by
  unfold pitchEmbedRow
  rw [List.length_map, List.length_range]

lemma pitchEmbedRow_getD (row : List ℚ) (j : ℕ) (h : j < row.length) :
    (pitchEmbedRow row).getD j 0 = if j ∈ pitchInd row then (1 : ℚ) else 0 := by
  unfold pitchEmbedRow
  rw [List.getD_eq_getElem?_getD, List.getElem?_map, List.getElem?_range h]
  rfl

lemma length_filter_mem_range {ind : List ℕ} {n : ℕ} (hnd : ind.Nodup)
    (hsub : ∀ i ∈ ind, i < n) :
    ((List.range n).filter (fun j => decide (j ∈ ind))).length = ind.length := by
  have hperm : List.Perm ((List.range n).filter (fun j => decide (j ∈ ind))) ind := by
    rw [List.perm_ext_iff_of_nodup (List.Nodup.filter _ (List.nodup_range n)) hnd]
    intro a
    simp only [List.mem_filter, List.mem_range, decide_eq_true_eq]
    constructor
    · rintro ⟨-, h⟩
      exact h
    · intro ha
      exact ⟨hsub a ha, ha⟩
  exact hperm.length_eq

/-- C7: for every magnitude row handed to the per-frame loop by the pitch
primitive (whose magnitudes are nonnegative), the output row built in
thread_main has the same width, exactly min(number of nonzero entries, 6)
nonzero entries, every entry 0 or 1, every 1 sitting at an index of
nonzero magnitude that is at least as large as the magnitude at any index
left at 0, and an all-zero magnitude row yields an all-zero output row;
the conditioning embedding of a window is this map applied to each frame
row of the magnitude matrix. -/
theorem pitch_embedding_topk (row : List ℚ) (hpos : ∀ x ∈ row, 0 ≤ x) :
    (pitchEmbedRow row).length = row.length ∧
    ((pitchEmbedRow row).filter (fun x => decide (x ≠ 0))).length =
      min ((row.filter (fun x => decide (x ≠ 0))).length) 6 ∧
    (∀ j, j < row.length → (pitchEmbedRow row).getD j 0 = 0 ∨ (pitchEmbedRow row).getD j 0 = 1) ∧
    (∀ j, j < row.length → (pitchEmbedRow row).getD j 0 = 1 →
      rowD row j ≠ 0 ∧
      ∀ i, i < row.length → (pitchEmbedRow row).getD i 0 = 0 → rowD row i ≤ rowD row j) ∧
    ((∀ x ∈ row, x = 0) → ∀ j, (pitchEmbedRow row).getD j 0 = 0) ∧
    (∀ mg piece, lc_embedding mg piece = (mg piece).map pitchEmbedRow) := by
  obtain ⟨hlen_ind, hnd, hlt, hdom⟩ := pitchInd_spec row
  have hppos := pitchInd_pos row hpos
  refine ⟨pitchEmbedRow_length row, ?_, ?_, ?_, ?_, fun mg piece => rfl⟩
  · show (((List.range row.length).map
        (fun j => if j ∈ pitchInd row then (1 : ℚ) else 0)).filter
          (fun x => decide (x ≠ 0))).length = _
    rw [List.filter_map, List.length_map]
    have hcongr : (List.range row.length).filter
        ((fun x => decide (x ≠ 0)) ∘ (fun j => if j ∈ pitchInd row then (1 : ℚ) else 0)) =
        (List.range row.length).filter (fun j => decide (j ∈ pitchInd row)) := by
      apply List.filter_congr
      intro j _
      by_cases hmem : j ∈ pitchInd row <;> simp [Function.comp, hmem]
    rw [hcongr, length_filter_mem_range hnd hlt, hlen_ind, cntNe_eq_filter_row row]
  · intro j hj
    rw [pitchEmbedRow_getD row j hj]
    by_cases hmem : j ∈ pitchInd row <;> simp [hmem]
  · intro j hj hone
    rw [pitchEmbedRow_getD row j hj] at hone
    have hmem : j ∈ pitchInd row := by
      by_contra hno
      rw [if_neg hno] at hone
      norm_num at hone
    constructor
    · exact ne_of_gt (hppos j hmem)
    · intro i hi hzero
      rw [pitchEmbedRow_getD row i hi] at hzero
      have hni : i ∉ pitchInd row := by
        intro hmi
        rw [if_pos hmi] at hzero
        norm_num at hzero
      rcases hdom j hmem i hi hni with hlt2 | ⟨heq, -⟩
      · exact le_of_lt hlt2
      · exact le_of_eq heq.symm
  · intro hz j
    have hcnt0 : ((List.range row.length).filter
        (fun j => decide (rowD row j ≠ 0))).length = 0 := by
      rw [List.length_eq_zero, List.filter_eq_nil_iff]
      intro a ha
      rw [List.mem_range] at ha
      have hmem2 : rowD row a ∈ row := by
        unfold rowD
        rw [List.getD_eq_getElem?_getD, List.getElem?_eq_getElem ha]
        exact List.getElem_mem ha
      simp [hz _ hmem2]
    have hind0 : pitchInd row = [] := by
      rw [← List.length_eq_zero, hlen_ind, hcnt0]
      simp
    by_cases hj : j < row.length
    · rw [pitchEmbedRow_getD row j hj, hind0]
      simp
    · refine List.getD_eq_default _ _ ?_
      rw [pitchEmbedRow_length row]
      omega

/-- C7 witness: the row-wise properties at a concrete magnitude row with
eight nonzero entries (so exactly six ones are set). -/
theorem pitch_embedding_topk_witness :
    (∀ x ∈ rowEx, (0 : ℚ) ≤ x) ∧
    ((pitchEmbedRow rowEx).length = rowEx.length ∧
      ((pitchEmbedRow rowEx).filter (fun x => decide (x ≠ 0))).length =
        min ((rowEx.filter (fun x => decide (x ≠ 0))).length) 6 ∧
      (∀ j, j < rowEx.length →
        (pitchEmbedRow rowEx).getD j 0 = 0 ∨ (pitchEmbedRow rowEx).getD j 0 = 1) ∧
      (∀ j, j < rowEx.length → (pitchEmbedRow rowEx).getD j 0 = 1 →
        rowD rowEx j ≠ 0 ∧
        ∀ i, i < rowEx.length → (pitchEmbedRow rowEx).getD i 0 = 0 →
          rowD rowEx i ≤ rowD rowEx j) ∧
      ((∀ x ∈ rowEx, x = 0) → ∀ j, (pitchEmbedRow rowEx).getD j 0 = 0) ∧
      (∀ mg piece, lc_embedding mg piece = (mg piece).map pitchEmbedRow)) :=
  ⟨by decide, pitch_embedding_topk rowEx (by decide)⟩
